import Mathlib

/-!
Verification of the finite-field secret-sharing and multi-party key-agreement
routines of this repository.

The Python sources are shallowly embedded:

* `Shamir.py` works with arbitrary-precision Python integers reduced modulo the
  module constant `PRIME`; it is embedded over `Int` with an explicit modulus
  parameter (`PRIME` is generalised to any prime, as the spec does), and every
  `% PRIME` of the source appears as an explicit `Int` `%`.
* the Diffie-Hellman scripts work with non-negative Python integers and
  `pow(_, _, p)`; they are embedded over `Nat`.
* `random.randint` draws are modelled as explicit list arguments.
* a Python exception is modelled as `none` of an `Option` result.
-/

/-- `Shamir.py` `generate_polynomial secret degree`: the list
`[secret] + [random.randint(0, PRIME - 1) for _ in range(degree)]`.
The `degree`-many random draws are passed explicitly as `coeffs`. -/
def generate_polynomial (secret : Int) (coeffs : List Int) : List Int :=
  secret :: coeffs

/-- `Shamir.py` `evaluate_polynomial poly x prime`:
`sum(coef * pow(x, i, prime) for i, coef in enumerate(poly)) % prime`. -/
def evaluate_polynomial (poly : List Int) (x : Int) (prime : Int) : Int :=
  ((poly.enum.map (fun ic => ic.2 * (x ^ ic.1 % prime))).sum) % prime

/-- Python `pow(a, -1, m)`: the modular inverse of `a` modulo `m`, an element of
`[0, m)`, when `gcd(a % m, m) = 1`, and a `ValueError` (here `none`) otherwise.
CPython computes it by the extended Euclidean algorithm; here the Bezout
coefficient `Nat.gcdA` reduced modulo `m` yields the same canonical
representative (inverses modulo `m` are unique in `[0, m)`). -/
def invMod (a m : Int) : Option Int :=
  if Int.gcd (a % m) m = 1 then some (Nat.gcdA (a % m).natAbs m.natAbs % m) else none

/-- Inner loop of `Shamir.py` `lagrange_interpolation`: the running product `li`
over `j in range(k)`, skipping `j = i`, with
`li *= (x - xj) * pow(xi - xj, -1, PRIME); li %= PRIME`. -/
def basisLoop (x : Int) (x_s : List Int) (i : Nat) (prime : Int) :
    List Nat → Int → Option Int
  | [], li => some li
  | j :: js, li =>
    if i ≠ j then
      match invMod (x_s.getD i 0 - x_s.getD j 0) prime with
      | some w => basisLoop x x_s i prime js ((li * ((x - x_s.getD j 0) * w)) % prime)
      | none => none
    else basisLoop x x_s i prime js li

/-- Outer loop of `Shamir.py` `lagrange_interpolation`: the running sum `total`
over `i in range(k)`, with `total += yi * li; total %= PRIME`. -/
def interpLoop (x : Int) (x_s y_s : List Int) (prime : Int) :
    List Nat → Int → Option Int
  | [], total => some total
  | i :: is, total =>
    match basisLoop x x_s i prime (List.range x_s.length) 1 with
    | some li => interpLoop x x_s y_s prime is ((total + y_s.getD i 0 * li) % prime)
    | none => none

/-- `Shamir.py` `lagrange_interpolation x x_s y_s`: Lagrange interpolation of the
sample points `(x_s[i], y_s[i])` evaluated at `x`, all modulo `prime`.
`none` models the `ValueError` raised by `pow(_, -1, PRIME)` on a
non-invertible difference of sample abscissae. -/
def lagrange_interpolation (x : Int) (x_s y_s : List Int) (prime : Int) : Option Int :=
  interpLoop x x_s y_s prime (List.range x_s.length) 0

/-- `Shamir.py` `generate_shares secret n t`: evaluates the polynomial
`[secret] ++ coeffs` (where `coeffs` stands for the `t - 1` random draws of
`generate_polynomial`) at the indices `1..n`, returning the share list and the
polynomial. -/
def generate_shares (secret : Int) (n : Nat) (coeffs : List Int) (prime : Int) :
    List (Int × Int) × List Int :=
  let poly := generate_polynomial secret coeffs
  ((List.range' 1 n).map (fun i : Nat =>
      ((i : Int), evaluate_polynomial poly (i : Int) prime)),
    poly)

/-- `Shamir.py` `reconstruct_secret shares`: `x_s, y_s = zip(*shares)` raises a
`ValueError` on an empty share list (modelled `none`); otherwise Lagrange
interpolation at `x = 0`. -/
def reconstruct_secret (shares : List (Int × Int)) (prime : Int) : Option Int :=
  match shares with
  | [] => none
  | _ :: _ =>
    lagrange_interpolation 0 (shares.map Prod.fst) (shares.map Prod.snd) prime

/-- `DHParticipant.apply_private_key` / `DHParticipant.apply_key`:
`pow(input_value, private_key, p)`. -/
def apply_key (p key input : Nat) : Nat :=
  input ^ key % p

/-- `DiffieHellman.compute_public_key`: `pow(g, private_key, p)`. -/
def compute_public_key (g p key : Nat) : Nat :=
  g ^ key % p

/-- `scriptNpartSequentiel.py` `MultipartyDH.run_protocol`: starting from
`current_value = g`, each participant in list order applies its private key to
the running value; the result is returned with no participant-count check. -/
def run_protocol_seq (g p : Nat) (keys : List Nat) : Nat :=
  keys.foldl (fun current a => apply_key p a current) g

/-- `scriptNpart.py` `MultipartyDH.run_protocol`: the same sequential fold, but
`raise ValueError("Il faut au moins 2 participants")` (modelled `none`) when
fewer than 2 participants are registered. -/
def run_protocol_seq_checked (g p : Nat) (keys : List Nat) : Option Nat :=
  if keys.length < 2 then none
  else some (keys.foldl (fun current a => apply_key p a current) g)

/-- One rotation round of `scriptNpartRound.py` `CircularMultipartyDH.run_protocol`
(and of the circular loops of `scriptBench.py` and `script3-4part.py`):
`new_values[i] = values[(i-1) % n] ^ keys[i] % p`.  Python's `(i - 1) % n`
evaluates to `n - 1` at `i = 0`; over `Nat` this is `(i + n - 1) % n`. -/
def circular_step (p : Nat) (keys values : List Nat) : List Nat :=
  (List.range keys.length).map (fun i =>
    apply_key p (keys.getD i 0) (values.getD ((i + keys.length - 1) % keys.length) 0))

/-- The value vector of `scriptNpartRound.py` after all rounds: round 0 stores
each participant's public key, then rounds `1..n-1` (that is, `range(1, n)`)
each apply `circular_step`. -/
def run_values (g p : Nat) (keys : List Nat) : List Nat :=
  (List.range' 1 (keys.length - 1)).foldl (fun values _ => circular_step p keys values)
    (keys.map (fun a => compute_public_key g p a))

/-- `scriptNpartRound.py` `CircularMultipartyDH.run_protocol` result:
the outer `none` is the `IndexError` of `current_values[0]` on an empty
participant list; `some none` is the Python `None` returned when the final
values disagree; `some (some s)` is a returned shared secret. -/
def run_protocol_circ (g p : Nat) (keys : List Nat) : Option (Option Nat) :=
  match run_values g p keys with
  | [] => none
  | s :: rest => some (if (s :: rest).all (fun v => v == s) then some s else none)

/-- `script3-4part.py` `MultipartyDH.circular_protocol`: as
`run_protocol_circ`, but `raise ValueError("Il faut au moins 2 participants")`
(modelled as the outer `none`) when fewer than 2 participants are registered. -/
def circular_protocol_checked (g p : Nat) (keys : List Nat) : Option (Option Nat) :=
  if keys.length < 2 then none else run_protocol_circ g p keys

/-- `scriptBench.py` `SequentialProtocol.run_protocol`: the sequential fold
together with the operation count (each `apply_key` call increments a counter;
the per-participant counters of the source are summed at the end, which this
single running counter models). -/
def seqRunBench (g p : Nat) (keys : List Nat) : Nat × Nat :=
  keys.foldl (fun st a => (apply_key p a st.1, st.2 + 1)) (g, 0)

/-- One round of `scriptBench.py` `CircularProtocol.run_protocol`: `new_values`
is built by appending one `apply_key` result per participant, each call
incrementing the operation counter. -/
def circRoundBench (p : Nat) (keys : List Nat) (st : List Nat × Nat) : List Nat × Nat :=
  (List.range keys.length).foldl
    (fun acc i =>
      (acc.1 ++ [apply_key p (keys.getD i 0) (st.1.getD ((i + keys.length - 1) % keys.length) 0)],
        acc.2 + 1))
    ([], st.2)

/-- `scriptBench.py` `CircularProtocol.run_protocol`: round 0 stores the public
keys (not counted as operations, since `compute_public_key` does not go through
`apply_key`), rounds `1..n-1` rotate, and the method returns
`current_values[0]` (`none` models the `IndexError` on an empty list) together
with the total operation count. -/
def circRunBench (g p : Nat) (keys : List Nat) : Option Nat × Nat :=
  let final := (List.range' 1 (keys.length - 1)).foldl (fun st _ => circRoundBench p keys st)
    (keys.map (fun a => compute_public_key g p a), 0)
  (final.1.head?, final.2)

/-! ### Generic fold lemmas -/

theorem foldl_apply_key (p : Nat) :
    ∀ (keys : List Nat) (c : Nat), keys ≠ [] →
      keys.foldl (fun current a => apply_key p a current) c = c ^ keys.prod % p := by
  intro keys
  induction keys with
  | nil => intro c h; exact absurd rfl h
  | cons a t ih =>
    intro c _
    cases t with
    | nil => simp [apply_key]
    | cons b t2 =>
      rw [List.foldl_cons]
      rw [ih (apply_key p a c) (by simp)]
      show (c ^ a % p) ^ (b :: t2).prod % p = c ^ (a :: b :: t2).prod % p
      rw [← Nat.pow_mod, ← pow_mul]
      simp [List.prod_cons]

theorem seqRunBench_fold (p : Nat) :
    ∀ (keys : List Nat) (c k : Nat),
      keys.foldl (fun st a => (apply_key p a st.1, st.2 + 1)) (c, k)
        = (keys.foldl (fun current a => apply_key p a current) c, k + keys.length) := by
  intro keys
  induction keys with
  | nil => intro c k; simp
  | cons a t ih =>
    intro c k
    rw [List.foldl_cons, List.foldl_cons, ih]
    refine Prod.ext rfl ?_
    show k + 1 + t.length = k + (a :: t).length
    simp [List.length_cons]
    omega

theorem foldl_iterate {α : Type} (f : α → α) :
    ∀ (l : List Nat) (init : α), l.foldl (fun v _ => f v) init = f^[l.length] init := by
  intro l
  induction l with
  | nil => intro init; rfl
  | cons a t ih =>
    intro init
    rw [List.foldl_cons, ih, List.length_cons, Function.iterate_succ_apply]

theorem foldl_build (f : Nat → Nat) :
    ∀ (js : List Nat) (init : List Nat) (c : Nat),
      js.foldl (fun acc i => (acc.1 ++ [f i], acc.2 + 1)) (init, c)
        = (init ++ js.map f, c + js.length) := by
  intro js
  induction js with
  | nil => intro init c; simp
  | cons j t ih =>
    intro init c
    rw [List.foldl_cons, ih]
    refine Prod.ext ?_ ?_
    · show init ++ [f j] ++ t.map f = init ++ (j :: t).map f
      simp
    · show c + 1 + t.length = c + (j :: t).length
      simp [List.length_cons]
      omega

theorem circRoundBench_eq (p : Nat) (keys : List Nat) (st : List Nat × Nat) :
    circRoundBench p keys st = (circular_step p keys st.1, st.2 + keys.length) := by
  unfold circRoundBench circular_step
  rw [foldl_build
    (fun i => apply_key p (keys.getD i 0) (st.1.getD ((i + keys.length - 1) % keys.length) 0))]
  simp

theorem rounds_fold (p : Nat) (keys : List Nat) :
    ∀ (l : List Nat) (vals : List Nat) (c : Nat),
      l.foldl (fun st _ => circRoundBench p keys st) (vals, c)
        = (l.foldl (fun v _ => circular_step p keys v) vals,
            c + l.length * keys.length) := by
  intro l
  induction l with
  | nil => intro vals c; simp
  | cons x t ih =>
    intro vals c
    rw [List.foldl_cons, circRoundBench_eq, List.foldl_cons, ih]
    refine Prod.ext rfl ?_
    show c + keys.length + t.length * keys.length = c + (x :: t).length * keys.length
    rw [List.length_cons, Nat.succ_mul]
    omega

theorem circRunBench_eq (g p : Nat) (keys : List Nat) :
    circRunBench g p keys
      = ((run_values g p keys).head?, keys.length * (keys.length - 1)) := by
  unfold circRunBench run_values
  rw [rounds_fold]
  simp [List.length_range', Nat.mul_comm]

/-- C2: running the sequential agreement protocol over participants with
private exponents `keys` (folding the running value through each participant in
list order, starting from `current = g`) returns `g ^ (a1 * a2 * ... * an) mod p`;
this holds both for the `scriptNpartSequentiel.py` driver and for the
`scriptBench.py` sequential protocol value. -/
theorem seq_run_eq_pow_prod (g p : Nat) (keys : List Nat) (hne : keys ≠ []) :
    run_protocol_seq g p keys = g ^ keys.prod % p ∧
    (seqRunBench g p keys).1 = g ^ keys.prod % p := by
  constructor
  · exact foldl_apply_key p keys g hne
  · unfold seqRunBench
    rw [seqRunBench_fold]
    exact foldl_apply_key p keys g hne

/-- Witness for `seq_run_eq_pow_prod`: `g = 2`, `p = 2357`, exponents
`[5, 7, 11]`, so the shared secret is `2 ^ 385 mod 2357`. -/
theorem seq_run_eq_pow_prod_witness :
    run_protocol_seq 2 2357 [5, 7, 11] = 2 ^ 385 % 2357 ∧
    (seqRunBench 2 2357 [5, 7, 11]).1 = 2 ^ 385 % 2357 :=
  seq_run_eq_pow_prod 2 2357 [5, 7, 11] (by decide)

/-- C8: for `n` participants, the `scriptBench.py` sequential protocol performs
and reports exactly `n` private-key applications and the circular protocol
exactly `n * (n - 1)`; round-0 public values are not counted. -/
theorem benchmark_operation_counts (g p : Nat) (keys : List Nat) :
    (seqRunBench g p keys).2 = keys.length ∧
    (circRunBench g p keys).2 = keys.length * (keys.length - 1) := by
  constructor
  · unfold seqRunBench
    rw [seqRunBench_fold]
    simp
  · rw [circRunBench_eq]

/-- C9: `reconstruct_secret` on the empty share list fails (the tuple
unpacking `x_s, y_s = zip(*shares)` raises a `ValueError`), while any single
share already makes it complete and return a field element. -/
theorem reconstruct_empty_fails :
    (∀ prime : Int, reconstruct_secret [] prime = none) ∧
    (∀ x y prime : Int, reconstruct_secret [(x, y)] prime = some (y % prime)) := by
  constructor
  · intro prime; rfl
  · intro x y prime
    show interpLoop 0 [x] [y] prime (List.range 1) 0 = some (y % prime)
    simp [interpLoop, basisLoop, List.range_succ, List.range_zero]

/-- C10: a circular run (`scriptNpartRound.py`) with exactly one participant
performs zero rotation rounds and returns the lone participant's public value
`g ^ a mod p` as the final secret, reporting convergence instead of failing
for having fewer than 2 participants. -/
theorem circular_single_participant (g p a : Nat) :
    run_values g p [a] = [compute_public_key g p a] ∧
    run_protocol_circ g p [a] = some (some (g ^ a % p)) := by
  constructor
  · rfl
  · have h : run_values g p [a] = [g ^ a % p] := rfl
    rw [run_protocol_circ, h]
    simp

theorem eval_zero_tail (prime : Int) :
    ∀ (coeffs : List Int) (s : Nat), s ≠ 0 →
      ((coeffs.enumFrom s).map (fun ic => ic.2 * ((0:Int) ^ ic.1 % prime))).sum = 0 := by
  intro coeffs
  induction coeffs with
  | nil => intro s _; rfl
  | cons c cs ih =>
    intro s hs
    rw [List.enumFrom_cons, List.map_cons, List.sum_cons, ih (s + 1) (by omega)]
    rw [zero_pow hs, Int.zero_emod, mul_zero, add_zero]

/-- C5 (amended): for a secret in `[0, p)` (the range a sharing session uses)
and any coefficient list, evaluating the generated polynomial at `x = 0`
returns its constant-term coefficient. -/
theorem evaluate_at_zero (p secret : Int) (coeffs : List Int)
    (hp : 1 < p) (h0 : 0 ≤ secret) (h1 : secret < p) :
    evaluate_polynomial (generate_polynomial secret coeffs) 0 p
      = (generate_polynomial secret coeffs).getD 0 0 := by
  unfold evaluate_polynomial generate_polynomial
  rw [List.getD_cons_zero]
  rw [show (secret :: coeffs).enum = (0, secret) :: coeffs.enumFrom 1 from rfl]
  rw [List.map_cons, List.sum_cons, eval_zero_tail p coeffs 1 one_ne_zero, add_zero]
  rw [pow_zero, Int.emod_eq_of_lt (by norm_num) hp, mul_one]
  exact Int.emod_eq_of_lt h0 h1

/-- C5 counterexample: with the integer secret `2089 = PRIME` (outside
`[0, PRIME)`), evaluating the generated polynomial at the origin returns `0`,
not the constant coefficient `2089`. -/
theorem evaluate_at_zero_cex :
    evaluate_polynomial (generate_polynomial 2089 []) 0 2089 = 0 ∧
    (generate_polynomial 2089 []).getD 0 0 = 2089 := by
  constructor <;> decide

/-- Witness for `evaluate_at_zero` at `p = 2089`, secret `1234`. -/
theorem evaluate_at_zero_witness :
    evaluate_polynomial (generate_polynomial 1234 [166]) 0 2089
      = (generate_polynomial 1234 [166]).getD 0 0 :=
  evaluate_at_zero 2089 1234 [166] (by norm_num) (by norm_num) (by norm_num)

/-- C7 counterexample: a run started with a single participant (fewer than 2)
does not fail: the `scriptNpartSequentiel.py` sequential driver returns the
final secret `2 ^ 5 mod 2357 = 32`, and the `scriptNpartRound.py` circular
driver returns the same secret. -/
theorem insufficient_participants_cex :
    run_protocol_seq 2 2357 [5] = 32 ∧
    run_protocol_circ 2 2357 [5] = some (some 32) := by
  constructor <;> decide

/-- C7 (amended): only the drivers of `scriptNpart.py` (sequential) and
`script3-4part.py` (circular) validate the participant count; those runs fail
with the insufficient-participants error for fewer than 2 participants instead
of producing a final secret, while the other drivers perform no such check. -/
theorem insufficient_participants_checked (g p : Nat) (keys : List Nat)
    (h : keys.length < 2) :
    run_protocol_seq_checked g p keys = none ∧
    circular_protocol_checked g p keys = none := by
  constructor
  · unfold run_protocol_seq_checked
    rw [if_pos h]
  · unfold circular_protocol_checked
    rw [if_pos h]

/-- Witness for `insufficient_participants_checked` with one participant. -/
theorem insufficient_participants_checked_witness :
    run_protocol_seq_checked 2 2357 [5] = none ∧
    circular_protocol_checked 2 2357 [5] = none :=
  insufficient_participants_checked 2 2357 [5] (by decide)

theorem circular_step_getD (p : Nat) (keys values : List Nat) (i : Nat)
    (hi : i < keys.length) :
    (circular_step p keys values).getD i 0
      = apply_key p (keys.getD i 0)
          (values.getD ((i + keys.length - 1) % keys.length) 0) := by
  unfold circular_step
  rw [List.getD_eq_getElem _ _ (by simpa using hi), List.getElem_map, List.getElem_range]

theorem natCast_pred_index (n i : Nat) (hn : n ≠ 0) :
    (((i + n - 1) % n : Nat) : ZMod n) = (i : ZMod n) - 1 := by
  have h1 : ((n - 1 : Nat) : ZMod n) = -1 := by
    have h2 : ((n - 1 : Nat) : ZMod n) + 1 = 0 := by
      have h3 : ((n - 1 : Nat) : ZMod n) + ((1 : Nat) : ZMod n)
          = (((n - 1) + 1 : Nat) : ZMod n) := (Nat.cast_add _ _).symm
      rw [Nat.cast_one] at h3
      rw [h3, Nat.sub_add_cancel (Nat.one_le_iff_ne_zero.mpr hn), ZMod.natCast_self]
    exact eq_neg_of_add_eq_zero_left h2
  rw [ZMod.natCast_mod, show i + n - 1 = i + (n - 1) from by omega, Nat.cast_add, h1,
    sub_eq_add_neg]

theorem circ_iterate_length (g p : Nat) (keys : List Nat) :
    ∀ r : Nat,
      ((circular_step p keys)^[r] (keys.map (fun a => compute_public_key g p a))).length
        = keys.length := by
  intro r
  induction r with
  | zero => simp
  | succ r ih =>
    rw [Function.iterate_succ_apply']
    unfold circular_step
    simp

theorem circ_iterate_getD (g p : Nat) (keys : List Nat) (hn : keys.length ≠ 0) :
    ∀ (r : Nat) (i : Nat), i < keys.length →
      ((circular_step p keys)^[r] (keys.map (fun a => compute_public_key g p a))).getD i 0
        = g ^ (∏ d ∈ Finset.range (r + 1),
            keys.getD ((i : ZMod keys.length) - (d : ZMod keys.length)).val 0) % p := by
  intro r
  induction r with
  | zero =>
    intro i hi
    rw [Function.iterate_zero_apply]
    rw [List.getD_eq_getElem _ _ (by simpa using hi), List.getElem_map]
    rw [Finset.prod_range_one]
    simp only [Nat.cast_zero, sub_zero]
    rw [ZMod.val_natCast_of_lt hi, List.getD_eq_getElem _ _ hi]
    rfl
  | succ r ih =>
    intro i hi
    rw [Function.iterate_succ_apply']
    rw [circular_step_getD p keys _ i hi]
    have hi2 : (i + keys.length - 1) % keys.length < keys.length :=
      Nat.mod_lt _ (Nat.pos_of_ne_zero hn)
    rw [ih _ hi2]
    unfold apply_key
    rw [← Nat.pow_mod, ← pow_mul]
    have harg : ∀ d : Nat,
        ((((i + keys.length - 1) % keys.length : Nat)) : ZMod keys.length)
            - (d : ZMod keys.length)
          = (i : ZMod keys.length) - ((d + 1 : Nat) : ZMod keys.length) := by
      intro d
      rw [natCast_pred_index keys.length i hn]
      push_cast
      ring
    have hexp : (∏ d ∈ Finset.range (r + 1),
          keys.getD ((((i + keys.length - 1) % keys.length : Nat) : ZMod keys.length)
            - (d : ZMod keys.length)).val 0) * keys.getD i 0
        = ∏ d ∈ Finset.range (r + 1 + 1),
            keys.getD ((i : ZMod keys.length) - (d : ZMod keys.length)).val 0 := by
      rw [Finset.prod_range_succ' (fun d =>
        keys.getD ((i : ZMod keys.length) - (d : ZMod keys.length)).val 0) (r + 1)]
      have hp1 : (∏ d ∈ Finset.range (r + 1),
            keys.getD ((((i + keys.length - 1) % keys.length : Nat) : ZMod keys.length)
              - (d : ZMod keys.length)).val 0)
          = ∏ d ∈ Finset.range (r + 1),
              keys.getD ((i : ZMod keys.length)
                - ((d + 1 : Nat) : ZMod keys.length)).val 0 :=
        Finset.prod_congr rfl (fun d _ => by rw [harg d])
      have hp0 : keys.getD ((i : ZMod keys.length)
            - ((0 : Nat) : ZMod keys.length)).val 0 = keys.getD i 0 := by
        simp only [Nat.cast_zero, sub_zero]
        rw [ZMod.val_natCast_of_lt hi]
      rw [hp1, hp0]
    rw [hexp]

theorem prod_range_getD :
    ∀ l : List Nat, ∏ d ∈ Finset.range l.length, l.getD d 0 = l.prod := by
  intro l
  induction l with
  | nil => simp
  | cons a t ih =>
    rw [List.length_cons, Finset.prod_range_succ']
    simp only [List.getD_cons_succ, List.getD_cons_zero]
    rw [ih, List.prod_cons, Nat.mul_comm]

theorem prod_window_all (keys : List Nat) (hn : keys.length ≠ 0) (x : ZMod keys.length) :
    ∏ d ∈ Finset.range keys.length,
        keys.getD (x - (d : ZMod keys.length)).val 0 = keys.prod := by
  haveI : NeZero keys.length := ⟨hn⟩
  have h1 : ∏ d ∈ Finset.range keys.length, keys.getD (x - (d : ZMod keys.length)).val 0
      = ∏ y : ZMod keys.length, keys.getD (x - y).val 0 := by
    refine Finset.prod_bij' (fun d _ => ((d : ZMod keys.length)))
      (fun y _ => y.val) (fun d _ => Finset.mem_univ _)
      (fun y _ => Finset.mem_range.mpr (ZMod.val_lt y)) ?_ ?_ ?_
    · intro d hd
      exact ZMod.val_natCast_of_lt (Finset.mem_range.mp hd)
    · intro y _
      exact ZMod.natCast_rightInverse y
    · intro d _
      rfl
  have h2 : ∏ y : ZMod keys.length, keys.getD (x - y).val 0
      = ∏ z : ZMod keys.length, keys.getD z.val 0 :=
    Fintype.prod_equiv (Equiv.subLeft x) _ _ (fun y => rfl)
  have h3 : ∏ z : ZMod keys.length, keys.getD z.val 0
      = ∏ d ∈ Finset.range keys.length, keys.getD d 0 := by
    symm
    refine Finset.prod_bij' (fun d _ => ((d : ZMod keys.length)))
      (fun z _ => z.val) (fun d _ => Finset.mem_univ _)
      (fun z _ => Finset.mem_range.mpr (ZMod.val_lt z)) ?_ ?_ ?_
    · intro d hd
      exact ZMod.val_natCast_of_lt (Finset.mem_range.mp hd)
    · intro z _
      exact ZMod.natCast_rightInverse z
    · intro d hd
      rw [ZMod.val_natCast_of_lt (Finset.mem_range.mp hd)]
  rw [h1, h2, h3, prod_range_getD]

theorem run_values_replicate (g p : Nat) (keys : List Nat) (hne : keys ≠ []) :
    run_values g p keys = List.replicate keys.length (g ^ keys.prod % p) := by
  have hn : keys.length ≠ 0 := fun h => hne (List.length_eq_zero.mp h)
  unfold run_values
  rw [foldl_iterate (circular_step p keys), List.length_range']
  rw [List.eq_replicate_iff]
  constructor
  · exact circ_iterate_length g p keys _
  · intro b hb
    obtain ⟨i, hilt, hbi⟩ := List.mem_iff_getElem.mp hb
    have hlen := circ_iterate_length g p keys (keys.length - 1)
    have hi : i < keys.length := by omega
    have hgd := circ_iterate_getD g p keys hn (keys.length - 1) i hi
    rw [List.getD_eq_getElem _ _ (by omega), hbi] at hgd
    rw [hgd, show keys.length - 1 + 1 = keys.length from by omega,
      prod_window_all keys hn]

/-- C3: in a circular agreement run over `n ≥ 2` participants (round 0 storing
`g ^ ai mod p`, each later round applying each key to the predecessor's value),
all `n` entries of the final value vector equal `g ^ (∏ ai) mod p`; hence the
diverged outcome (the Python `None`, modelled `some none`) is unreachable and
the run returns the shared secret. -/
theorem circular_all_converge (g p : Nat) (keys : List Nat)
    (_hp : p.Prime) (h2 : 2 ≤ keys.length) :
    (∀ v ∈ run_values g p keys, v = g ^ keys.prod % p) ∧
    run_protocol_circ g p keys = some (some (g ^ keys.prod % p)) := by
  have hne : keys ≠ [] := by
    intro h
    rw [h] at h2
    simp at h2
  have hrep := run_values_replicate g p keys hne
  constructor
  · intro v hv
    rw [hrep] at hv
    exact List.eq_of_mem_replicate hv
  · rw [run_protocol_circ, hrep]
    obtain ⟨m, hm⟩ : ∃ m, keys.length = m + 1 := ⟨keys.length - 1, by omega⟩
    rw [hm, List.replicate_succ]
    have hall : ∀ b ∈ List.replicate m (g ^ keys.prod % p), b = g ^ keys.prod % p :=
      fun b hb => List.eq_of_mem_replicate hb
    simp only [List.all_cons, List.all_eq_true, beq_self_eq_true, Bool.true_and]
    rw [if_pos]
    intro v hv
    rw [List.eq_of_mem_replicate hv]
    exact beq_self_eq_true _

/-- Witness for `circular_all_converge`: `g = 2`, `p = 5`, exponents `[2, 3]`;
all final values are `2 ^ 6 mod 5 = 4`. -/
theorem circular_all_converge_witness :
    (∀ v ∈ run_values 2 5 [2, 3], v = 2 ^ 6 % 5) ∧
    run_protocol_circ 2 5 [2, 3] = some (some (2 ^ 6 % 5)) :=
  circular_all_converge 2 5 [2, 3] (by norm_num) (by decide)

/-- C4: for the same modulus, generator and participant keys, the circular
protocol value of `scriptBench.py` (when it reaches its verified state, i.e.
returns a value at all) equals the sequential protocol value computed over the
participants in any order. -/
theorem circular_refines_sequential (g p : Nat) (keys keys2 : List Nat)
    (hperm : keys.Perm keys2) (hne : keys ≠ []) :
    (circRunBench g p keys).1 = some ((seqRunBench g p keys2).1) := by
  have hne2 : keys2 ≠ [] := by
    intro h
    apply hne
    rw [← List.length_eq_zero, hperm.length_eq, h, List.length_nil]
  rw [circRunBench_eq, run_values_replicate g p keys hne]
  obtain ⟨m, hm⟩ : ∃ m, keys.length = m + 1 :=
    ⟨keys.length - 1, by
      have : keys.length ≠ 0 := fun h => hne (List.length_eq_zero.mp h)
      omega⟩
  rw [hm, List.replicate_succ, List.head?_cons]
  unfold seqRunBench
  rw [seqRunBench_fold]
  show some (g ^ keys.prod % p) = some (keys2.foldl (fun current a => apply_key p a current) g)
  rw [foldl_apply_key p keys2 g hne2, hperm.prod_eq]

/-- Witness for `circular_refines_sequential`: keys `[2, 3]` against the
reordered `[3, 2]`. -/
theorem circular_refines_sequential_witness :
    (circRunBench 2 5 [2, 3]).1 = some ((seqRunBench 2 5 [3, 2]).1) :=
  circular_refines_sequential 2 5 [2, 3] [3, 2] (by decide) (by decide)

theorem invMod_spec (p : Nat) [hF : Fact p.Prime] (a : Int) (ha : (a : ZMod p) ≠ 0) :
    ∃ w, invMod a (p : Int) = some w ∧ 0 ≤ w ∧ w < (p : Int) ∧
      (w : ZMod p) = (a : ZMod p)⁻¹ := by
  have hp : p.Prime := hF.out
  have hp0 : (0 : Int) < (p : Int) := by exact_mod_cast hp.pos
  have hpz : ((p : Int)) ≠ 0 := ne_of_gt hp0
  have hb0 : 0 ≤ a % (p : Int) := Int.emod_nonneg a hpz
  have hcast : ((a % (p : Int) : Int) : ZMod p) = (a : ZMod p) := ZMod.intCast_mod a p
  have hnd : ¬ (p : Int) ∣ (a % (p : Int)) := by
    intro hdvd
    apply ha
    rw [← hcast]
    exact (ZMod.intCast_zmod_eq_zero_iff_dvd _ p).mpr hdvd
  have hnd2 : ¬ p ∣ (a % (p : Int)).natAbs := by
    intro h
    apply hnd
    refine Int.natAbs_dvd_natAbs.mp ?_
    rwa [Int.natAbs_ofNat]
  have hgcd1 : Nat.gcd (a % (p : Int)).natAbs p = 1 := by
    have h2 := (Nat.Prime.coprime_iff_not_dvd hp).mpr hnd2
    rw [Nat.gcd_comm]
    exact h2
  have hgcd : Int.gcd (a % (p : Int)) (p : Int) = 1 := by
    show Nat.gcd (a % (p : Int)).natAbs ((p : Int)).natAbs = 1
    rw [Int.natAbs_ofNat]
    exact hgcd1
  refine ⟨Nat.gcdA (a % (p : Int)).natAbs ((p : Int)).natAbs % (p : Int), ?_,
    Int.emod_nonneg _ hpz, Int.emod_lt_of_pos _ hp0, ?_⟩
  · unfold invMod
    rw [if_pos hgcd]
  · rw [Int.natAbs_ofNat, ZMod.intCast_mod]
    have hbez := Nat.gcd_eq_gcd_ab (a % (p : Int)).natAbs p
    rw [hgcd1] at hbez
    have h3 : (a : ZMod p) * ((Nat.gcdA (a % (p : Int)).natAbs p : Int) : ZMod p) = 1 := by
      have h4 := congrArg (fun t : Int => ((t : ZMod p))) hbez
      simp only [Int.cast_one, Int.cast_add, Int.cast_mul, Int.cast_natCast,
        Nat.cast_one] at h4
      rw [ZMod.natCast_self, zero_mul, add_zero] at h4
      have h5 : (((a % (p : Int)).natAbs : Nat) : ZMod p) = (a : ZMod p) := by
        have h6 : (((a % (p : Int)).natAbs : Int) : ZMod p) = (a : ZMod p) := by
          rw [Int.natAbs_of_nonneg hb0, hcast]
        rw [← h6]
        exact (Int.cast_natCast _).symm
      rw [h5] at h4
      exact h4.symm
    exact (inv_eq_of_mul_eq_one_right h3).symm

/-- The Lagrange basis factor contributed by sample index `j` (relative to the
selected sample `i`), as computed by one pass of the inner loop of
`lagrange_interpolation`, viewed in `ZMod p`.  The skipped iteration `j = i`
contributes `1`. -/
def basisFactor (p : Nat) (x : Int) (x_s : List Int) (i j : Nat) : ZMod p :=
  if j = i then 1
  else ((x : ZMod p) - ((x_s.getD j 0 : Int) : ZMod p))
    * (((x_s.getD i 0 : Int) : ZMod p) - ((x_s.getD j 0 : Int) : ZMod p))⁻¹

theorem basisLoop_spec (p : Nat) [hF : Fact p.Prime] (x : Int) (x_s : List Int) (i : Nat) :
    ∀ l : List Nat,
      (∀ j ∈ l, j ≠ i → (((x_s.getD i 0 - x_s.getD j 0 : Int)) : ZMod p) ≠ 0) →
      ∀ li : Int, 0 ≤ li → li < (p : Int) →
      ∃ out, basisLoop x x_s i (p : Int) l li = some out ∧ 0 ≤ out ∧ out < (p : Int) ∧
        (out : ZMod p)
          = (li : ZMod p) * (l.map (fun j => basisFactor p x x_s i j)).prod := by
  have hp : p.Prime := hF.out
  have hp0 : (0 : Int) < (p : Int) := by exact_mod_cast hp.pos
  have hpz : ((p : Int)) ≠ 0 := ne_of_gt hp0
  intro l
  induction l with
  | nil =>
    intro _ li h0 h1
    exact ⟨li, rfl, h0, h1, by simp⟩
  | cons j js ih =>
    intro hl li h0 h1
    by_cases hij : i ≠ j
    · simp only [basisLoop]
      rw [if_pos hij]
      have hd : (((x_s.getD i 0 - x_s.getD j 0 : Int)) : ZMod p) ≠ 0 :=
        hl j (List.mem_cons_self j js) (Ne.symm hij)
      obtain ⟨w, hw, hw0, hw1, hwc⟩ := invMod_spec p _ hd
      rw [hw]
      obtain ⟨out, ho, ho0, ho1, hoc⟩ :=
        ih (fun j2 hj2 hji => hl j2 (List.mem_cons_of_mem _ hj2) hji)
          ((li * ((x - x_s.getD j 0) * w)) % (p : Int))
          (Int.emod_nonneg _ hpz) (Int.emod_lt_of_pos _ hp0)
      refine ⟨out, ho, ho0, ho1, ?_⟩
      rw [hoc]
      have hstep : (((li * ((x - x_s.getD j 0) * w)) % (p : Int) : Int) : ZMod p)
          = (li : ZMod p) * basisFactor p x x_s i j := by
        rw [ZMod.intCast_mod]
        push_cast
        rw [hwc]
        unfold basisFactor
        rw [if_neg (Ne.symm hij)]
        push_cast
        ring
      rw [hstep, List.map_cons, List.prod_cons, mul_assoc]
    · push_neg at hij
      simp only [basisLoop]
      rw [if_neg (by simp [hij])]
      obtain ⟨out, ho, ho0, ho1, hoc⟩ :=
        ih (fun j2 hj2 hji => hl j2 (List.mem_cons_of_mem _ hj2) hji) li h0 h1
      refine ⟨out, ho, ho0, ho1, ?_⟩
      rw [hoc, List.map_cons, List.prod_cons]
      unfold basisFactor
      rw [if_pos hij.symm, one_mul]

theorem interpLoop_spec (p : Nat) [hF : Fact p.Prime] (x : Int) (x_s y_s : List Int) :
    ∀ l : List Nat,
      (∀ i ∈ l, ∀ j ∈ List.range x_s.length, j ≠ i →
        (((x_s.getD i 0 - x_s.getD j 0 : Int)) : ZMod p) ≠ 0) →
      ∀ total : Int, 0 ≤ total → total < (p : Int) →
      ∃ out, interpLoop x x_s y_s (p : Int) l total = some out ∧ 0 ≤ out ∧
        out < (p : Int) ∧
        (out : ZMod p) = (total : ZMod p)
          + (l.map (fun i => ((y_s.getD i 0 : Int) : ZMod p)
              * ((List.range x_s.length).map (fun j => basisFactor p x x_s i j)).prod)).sum := by
  have hp : p.Prime := hF.out
  have hp0 : (0 : Int) < (p : Int) := by exact_mod_cast hp.pos
  have hpz : ((p : Int)) ≠ 0 := ne_of_gt hp0
  have hp1 : (1 : Int) < (p : Int) := by exact_mod_cast hp.one_lt
  intro l
  induction l with
  | nil =>
    intro _ total h0 h1
    exact ⟨total, rfl, h0, h1, by simp⟩
  | cons i is ih =>
    intro hl total h0 h1
    obtain ⟨li, hli, hli0, hli1, hlic⟩ := basisLoop_spec p x x_s i (List.range x_s.length)
      (fun j hj hji => hl i (List.mem_cons_self i is) j hj hji) 1 (by norm_num) hp1
    simp only [interpLoop]
    rw [hli]
    obtain ⟨out, ho, ho0, ho1, hoc⟩ :=
      ih (fun i2 hi2 => hl i2 (List.mem_cons_of_mem _ hi2))
        ((total + y_s.getD i 0 * li) % (p : Int))
        (Int.emod_nonneg _ hpz) (Int.emod_lt_of_pos _ hp0)
    refine ⟨out, ho, ho0, ho1, ?_⟩
    rw [hoc]
    have hstep : (((total + y_s.getD i 0 * li) % (p : Int) : Int) : ZMod p)
        = (total : ZMod p) + ((y_s.getD i 0 : Int) : ZMod p)
            * ((List.range x_s.length).map (fun j => basisFactor p x x_s i j)).prod := by
      rw [ZMod.intCast_mod]
      push_cast
      rw [hlic]
      push_cast
      ring
    rw [hstep, List.map_cons, List.sum_cons]
    ring

theorem list_range_map_prod {M : Type} [CommMonoid M] (f : Nat → M) :
    ∀ k : Nat, ((List.range k).map f).prod = ∏ j ∈ Finset.range k, f j := by
  intro k
  induction k with
  | zero => simp
  | succ k ih =>
    rw [List.range_succ, List.map_append, List.prod_append, Finset.prod_range_succ, ih]
    simp

theorem list_range_map_sum {M : Type} [AddCommMonoid M] (f : Nat → M) :
    ∀ k : Nat, ((List.range k).map f).sum = ∑ j ∈ Finset.range k, f j := by
  intro k
  induction k with
  | zero => simp
  | succ k ih =>
    rw [List.range_succ, List.map_append, List.sum_append, Finset.sum_range_succ, ih]
    simp

theorem enumFrom_sum_cast (p : Nat) (z : Int) :
    ∀ (l : List Int) (s : Nat),
      ((((l.enumFrom s).map (fun ic => ic.2 * (z ^ ic.1 % (p : Int)))).sum : Int) : ZMod p)
        = ∑ idx ∈ Finset.range l.length,
            ((l.getD idx 0 : Int) : ZMod p) * ((z : Int) : ZMod p) ^ (s + idx) := by
  intro l
  induction l with
  | nil => intro s; simp
  | cons c cs ih =>
    intro s
    rw [List.enumFrom_cons, List.map_cons, List.sum_cons, Int.cast_add, Int.cast_mul]
    rw [ih (s + 1)]
    rw [List.length_cons, Finset.sum_range_succ'
      (fun idx => ((((c :: cs).getD idx 0 : Int)) : ZMod p) * ((z : Int) : ZMod p) ^ (s + idx))]
    rw [add_comm ((c : ZMod p) * _)]
    congr 1
    · apply Finset.sum_congr rfl
      intro idx _
      rw [List.getD_cons_succ, show s + (idx + 1) = s + 1 + idx from by omega]
    · rw [List.getD_cons_zero, add_zero, ZMod.intCast_mod, Int.cast_pow]

theorem evaluate_polynomial_cast (p : Nat) (poly : List Int) (z : Int) :
    ((evaluate_polynomial poly z (p : Int) : Int) : ZMod p)
      = ∑ idx ∈ Finset.range poly.length,
          ((poly.getD idx 0 : Int) : ZMod p) * ((z : Int) : ZMod p) ^ idx := by
  unfold evaluate_polynomial
  rw [ZMod.intCast_mod]
  have h := enumFrom_sum_cast p z poly 0
  simpa [List.enum] using h

/-- The sharing polynomial of `Shamir.py`, reduced into `ZMod p`: coefficient
`idx` is the integer list entry `poly[idx]` cast into the field.  This is a
proof-side mathematical object (Mathlib polynomials carry no executable code),
not part of the embedding of the source. -/
noncomputable def polyOf (p : Nat) (poly : List Int) : Polynomial (ZMod p) :=
  ∑ idx ∈ Finset.range poly.length,
    Polynomial.C ((poly.getD idx 0 : Int) : ZMod p) * Polynomial.X ^ idx

theorem polyOf_eval (p : Nat) (poly : List Int) (w : ZMod p) :
    (polyOf p poly).eval w
      = ∑ idx ∈ Finset.range poly.length, ((poly.getD idx 0 : Int) : ZMod p) * w ^ idx := by
  unfold polyOf
  rw [Polynomial.eval_finset_sum]
  apply Finset.sum_congr rfl
  intro idx _
  simp

theorem polyOf_degree_lt (p : Nat) (poly : List Int) :
    (polyOf p poly).degree < (poly.length : WithBot Nat) := by
  apply lt_of_le_of_lt (Polynomial.degree_sum_le _ _)
  rw [Finset.sup_lt_iff (WithBot.bot_lt_coe _)]
  intro b hb
  apply lt_of_le_of_lt (Polynomial.degree_C_mul_X_pow_le b _)
  exact_mod_cast Finset.mem_range.mp hb

theorem polyOf_eval_zero (p : Nat) (poly : List Int) (hl : poly.length ≠ 0) :
    (polyOf p poly).eval 0 = ((poly.getD 0 0 : Int) : ZMod p) := by
  rw [polyOf_eval]
  rw [Finset.sum_eq_single 0]
  · simp
  · intro b _ hb
    rw [zero_pow hb, mul_zero]
  · intro h
    exact absurd (Finset.mem_range.mpr (Nat.pos_of_ne_zero hl)) h

theorem sum_factor_eq_eval_interpolate (p : Nat) [Fact p.Prime] (x : Int)
    (x_s : List Int) (r : Nat → ZMod p) :
    ∑ i ∈ Finset.range x_s.length,
        r i * ∏ j ∈ Finset.range x_s.length, basisFactor p x x_s i j
      = Polynomial.eval ((x : Int) : ZMod p)
          (Lagrange.interpolate (Finset.range x_s.length)
            (fun i => ((x_s.getD i 0 : Int) : ZMod p)) r) := by
  rw [Lagrange.interpolate_apply, Polynomial.eval_finset_sum]
  apply Finset.sum_congr rfl
  intro i _
  rw [Polynomial.eval_mul, Polynomial.eval_C]
  congr 1
  have hone : basisFactor p x x_s i i = 1 := by
    unfold basisFactor
    rw [if_pos rfl]
  rw [← Finset.prod_erase (Finset.range x_s.length) hone]
  unfold Lagrange.basis
  rw [Polynomial.eval_prod]
  apply Finset.prod_congr rfl
  intro j hj
  have hji : j ≠ i := (Finset.mem_erase.mp hj).1
  unfold basisFactor Lagrange.basisDivisor
  rw [if_neg hji]
  simp only [Polynomial.eval_mul, Polynomial.eval_C, Polynomial.eval_sub, Polynomial.eval_X]
  ring

theorem map_fst_getD (sel : List (Int × Int)) (i : Nat) (hi : i < sel.length) :
    (sel.map Prod.fst).getD i 0 = (sel.get ⟨i, hi⟩).1 := by
  rw [List.getD_eq_getElem _ _ (by simpa using hi), List.getElem_map, List.get_eq_getElem]

theorem map_snd_getD (sel : List (Int × Int)) (i : Nat) (hi : i < sel.length) :
    (sel.map Prod.snd).getD i 0 = (sel.get ⟨i, hi⟩).2 := by
  rw [List.getD_eq_getElem _ _ (by simpa using hi), List.getElem_map, List.get_eq_getElem]

theorem share_at_position (secret : Int) (n : Nat) (coeffs : List Int) (prime : Int)
    (sel : List (Int × Int))
    (hsub : ∀ s ∈ sel, s ∈ (generate_shares secret n coeffs prime).1)
    (i : Nat) (hi : i < sel.length) :
    ∃ m : Nat, 1 ≤ m ∧ m ≤ n ∧
      sel.get ⟨i, hi⟩ = ((m : Int),
        evaluate_polynomial (generate_polynomial secret coeffs) (m : Int) prime) := by
  have hmem := hsub _ (sel.get_mem i hi)
  have h2 : (generate_shares secret n coeffs prime).1
      = (List.range' 1 n).map (fun m : Nat =>
          ((m : Int),
            evaluate_polynomial (generate_polynomial secret coeffs) (m : Int) prime)) := rfl
  rw [h2] at hmem
  obtain ⟨m, hm, heq⟩ := List.mem_map.mp hmem
  have hm2 := List.mem_range'_1.mp hm
  exact ⟨m, hm2.1, by omega, heq.symm⟩

theorem shares_fst_cast_injective (p : Nat) [Fact p.Prime] (secret : Int) (n : Nat)
    (coeffs : List Int) (hnp : n < p) (sel : List (Int × Int)) (hnd : sel.Nodup)
    (hsub : ∀ s ∈ sel, s ∈ (generate_shares secret n coeffs (p : Int)).1) :
    ∀ i, i < sel.length → ∀ j, j < sel.length → i ≠ j →
      (((sel.map Prod.fst).getD i 0 : Int) : ZMod p)
        ≠ (((sel.map Prod.fst).getD j 0 : Int) : ZMod p) := by
  intro i hi j hj hij heq
  obtain ⟨mi, hmi1, hmi2, hei⟩ := share_at_position secret n coeffs (p : Int) sel hsub i hi
  obtain ⟨mj, hmj1, hmj2, hej⟩ := share_at_position secret n coeffs (p : Int) sel hsub j hj
  have hxi : (sel.map Prod.fst).getD i 0 = (mi : Int) := by
    rw [map_fst_getD sel i hi, hei]
  have hxj : (sel.map Prod.fst).getD j 0 = (mj : Int) := by
    rw [map_fst_getD sel j hj, hej]
  rw [hxi, hxj] at heq
  have hmm : mi = mj := by
    have h1 := (ZMod.intCast_eq_intCast_iff' _ _ _).mp heq
    rw [Int.emod_eq_of_lt (Int.natCast_nonneg mi)
        (by exact_mod_cast (by omega : mi < p)),
      Int.emod_eq_of_lt (Int.natCast_nonneg mj)
        (by exact_mod_cast (by omega : mj < p))] at h1
    exact_mod_cast h1
  have hce : sel.get ⟨i, hi⟩ = sel.get ⟨j, hj⟩ := by
    rw [hei, hej, hmm]
  rw [List.get_eq_getElem, List.get_eq_getElem] at hce
  exact hij (hnd.getElem_inj_iff.mp hce)

theorem reconstruct_core (p : Nat) [Fact p.Prime] (secret : Int) (n : Nat)
    (coeffs : List Int) (hnp : n < p) (sel : List (Int × Int)) (hnd : sel.Nodup)
    (hsub : ∀ s ∈ sel, s ∈ (generate_shares secret n coeffs (p : Int)).1)
    (hcne : sel ≠ []) :
    ∃ T, reconstruct_secret sel (p : Int) = some T ∧ 0 ≤ T ∧ T < (p : Int) ∧
      (T : ZMod p) = ∑ i ∈ Finset.range (sel.map Prod.fst).length,
        (((sel.map Prod.snd).getD i 0 : Int) : ZMod p)
          * ∏ j ∈ Finset.range (sel.map Prod.fst).length,
              basisFactor p 0 (sel.map Prod.fst) i j := by
  have hp : p.Prime := Fact.out
  have hklen : (sel.map Prod.fst).length = sel.length := List.length_map _ _
  have hdiffs : ∀ i ∈ List.range (sel.map Prod.fst).length,
      ∀ j ∈ List.range (sel.map Prod.fst).length, j ≠ i →
      ((((sel.map Prod.fst).getD i 0 - (sel.map Prod.fst).getD j 0 : Int)) : ZMod p) ≠ 0 := by
    intro i hi j hj hji h0
    rw [Int.cast_sub, sub_eq_zero] at h0
    have hi2 : i < sel.length := by
      have := List.mem_range.mp hi
      omega
    have hj2 : j < sel.length := by
      have := List.mem_range.mp hj
      omega
    exact shares_fst_cast_injective p secret n coeffs hnp sel hnd hsub i hi2 j hj2
      (Ne.symm hji) h0
  obtain ⟨T, hT, hT0, hT1, hTc⟩ := interpLoop_spec p 0 (sel.map Prod.fst)
    (sel.map Prod.snd) (List.range (sel.map Prod.fst).length) hdiffs 0 le_rfl
    (by exact_mod_cast hp.pos)
  refine ⟨T, ?_, hT0, hT1, ?_⟩
  · obtain ⟨s0, rest, rfl⟩ : ∃ s0 rest, sel = s0 :: rest := by
      cases sel with
      | nil => exact absurd rfl hcne
      | cons s0 rest => exact ⟨s0, rest, rfl⟩
    exact hT
  · rw [hTc, Int.cast_zero, zero_add, list_range_map_sum]
    apply Finset.sum_congr rfl
    intro i _
    rw [list_range_map_prod]

/-- C1: for every prime `p`, secret in `[0, p)`, parameters `1 ≤ t ≤ n < p`,
and every subset of exactly `t` of the `n` shares produced by
`generate_shares` (chosen arbitrarily and listed in any order),
`reconstruct_secret` returns the original secret. -/
theorem shamir_reconstruct_any_subset
    (p : Nat) (hp : p.Prime) (secret : Int) (n t : Nat) (coeffs : List Int)
    (hs0 : 0 ≤ secret) (hs1 : secret < (p : Int))
    (ht : 1 ≤ t) (_htn : t ≤ n) (hnp : n < p)
    (hcl : coeffs.length = t - 1)
    (sel : List (Int × Int)) (hnd : sel.Nodup)
    (hsub : ∀ s ∈ sel, s ∈ (generate_shares secret n coeffs (p : Int)).1)
    (hlen : sel.length = t) :
    reconstruct_secret sel (p : Int) = some secret := by
  haveI : Fact p.Prime := ⟨hp⟩
  have hcne : sel ≠ [] := by
    intro h
    rw [h] at hlen
    simp at hlen
    omega
  obtain ⟨T, hrec, hT0, hT1, hsum⟩ :=
    reconstruct_core p secret n coeffs hnp sel hnd hsub hcne
  have hklen : (sel.map Prod.fst).length = sel.length := List.length_map _ _
  have hpolylen : (generate_polynomial secret coeffs).length = t := by
    unfold generate_polynomial
    rw [List.length_cons, hcl]
    omega
  have hinj : Set.InjOn (fun i => (((sel.map Prod.fst).getD i 0 : Int) : ZMod p))
      ((Finset.range (sel.map Prod.fst).length) : Set Nat) := by
    intro i hi j hj heq
    by_contra hij
    have hi2 : i < sel.length := by
      have := Finset.mem_range.mp hi
      omega
    have hj2 : j < sel.length := by
      have := Finset.mem_range.mp hj
      omega
    exact shares_fst_cast_injective p secret n coeffs hnp sel hnd hsub i hi2 j hj2 hij heq
  have hevals : ∀ i ∈ Finset.range (sel.map Prod.fst).length,
      Polynomial.eval ((((sel.map Prod.fst).getD i 0 : Int)) : ZMod p)
          (polyOf p (generate_polynomial secret coeffs))
        = (((sel.map Prod.snd).getD i 0 : Int) : ZMod p) := by
    intro i hi
    have hi2 : i < sel.length := by
      have := Finset.mem_range.mp hi
      omega
    obtain ⟨m, hm1, hm2, hci⟩ :=
      share_at_position secret n coeffs (p : Int) sel hsub i hi2
    have hxi : (sel.map Prod.fst).getD i 0 = (m : Int) := by
      rw [map_fst_getD sel i hi2, hci]
    have hyi : (sel.map Prod.snd).getD i 0
        = evaluate_polynomial (generate_polynomial secret coeffs) (m : Int) (p : Int) := by
      rw [map_snd_getD sel i hi2, hci]
    rw [hxi, hyi, evaluate_polynomial_cast, polyOf_eval]
  have hdeg : (polyOf p (generate_polynomial secret coeffs)).degree
      < (((Finset.range (sel.map Prod.fst).length).card : Nat) : WithBot Nat) := by
    rw [Finset.card_range, hklen, hlen, ← hpolylen]
    exact polyOf_degree_lt p _
  have hfe := Lagrange.eq_interpolate_of_eval_eq
    (fun i => (((sel.map Prod.snd).getD i 0 : Int) : ZMod p)) hinj hdeg hevals
  have hTs : (T : ZMod p) = ((secret : Int) : ZMod p) := by
    rw [hsum, sum_factor_eq_eval_interpolate p 0 (sel.map Prod.fst)
      (fun i => (((sel.map Prod.snd).getD i 0 : Int) : ZMod p))]
    rw [← hfe, Int.cast_zero, polyOf_eval_zero p _ (by rw [hpolylen]; omega)]
    rfl
  have hfinal : T = secret := by
    have h1 := (ZMod.intCast_eq_intCast_iff' _ _ _).mp hTs
    rw [Int.emod_eq_of_lt hT0 hT1, Int.emod_eq_of_lt hs0 hs1] at h1
    exact h1
  rw [hrec, hfinal]

/-- Witness for `shamir_reconstruct_any_subset`: `p = 5`, secret `3`,
polynomial `[3, 4]`, `n = 3`, `t = 2`, shares `[(1,2), (2,1), (3,0)]`;
reconstructing from the scrambled non-prefix subset `[(3,0), (1,2)]`
returns `3`. -/
theorem shamir_reconstruct_any_subset_witness :
    reconstruct_secret [((3 : Int), 0), ((1 : Int), 2)] ((5 : Nat) : Int) = some 3 :=
  shamir_reconstruct_any_subset 5 (by norm_num) 3 3 2 [4] (by norm_num) (by norm_num)
    (by norm_num) (by norm_num) (by norm_num) (by decide)
    [((3 : Int), 0), ((1 : Int), 2)] (by decide) (by decide) (by decide)

/-- C6 (amended): reconstructing from a nonempty selection of fewer than
`threshold` shares of a sharing session does not raise: it completes and
returns a field element in `[0, p)` (a value with no cryptographic meaning),
with no sufficiency validation.  The empty selection is the sole exception
(see the C9 theorem). -/
theorem reconstruct_under_threshold (p : Nat) (hp : p.Prime) (secret : Int)
    (n t : Nat) (coeffs : List Int) (hnp : n < p)
    (sel : List (Int × Int)) (hnd : sel.Nodup)
    (hsub : ∀ s ∈ sel, s ∈ (generate_shares secret n coeffs (p : Int)).1)
    (hcne : sel ≠ []) (_hlt : sel.length < t) :
    ∃ v, reconstruct_secret sel (p : Int) = some v ∧ 0 ≤ v ∧ v < (p : Int) := by
  haveI : Fact p.Prime := ⟨hp⟩
  obtain ⟨T, hrec, h0, h1, _⟩ := reconstruct_core p secret n coeffs hnp sel hnd hsub hcne
  exact ⟨T, hrec, h0, h1⟩

/-- C6 counterexample: the empty share selection also has size smaller than
the threshold, yet `reconstruct_secret` fails on it (the Python unpacking
raises) instead of completing with a field element. -/
theorem reconstruct_under_threshold_cex :
    reconstruct_secret ([] : List (Int × Int)) ((5 : Nat) : Int) = none := rfl

/-- Witness for `reconstruct_under_threshold`: one share of a `t = 2`
session over `p = 5`. -/
theorem reconstruct_under_threshold_witness :
    ∃ v, reconstruct_secret [((1 : Int), 2)] ((5 : Nat) : Int) = some v ∧
      0 ≤ v ∧ v < ((5 : Nat) : Int) :=
  reconstruct_under_threshold 5 (by norm_num) 3 3 2 [4] (by norm_num)
    [((1 : Int), 2)] (by decide) (by decide) (by decide) (by decide)
